import Mathlib

/-!
Verification of the ballet-page session-extraction engine.

The Go source operates on UTF-8 strings.  We embed a Go string as a
`List Char` (its sequence of runes) and model the byte-oriented Go
operations (`len`, byte slicing, byte indices from `strings.Index`)
through the UTF-8 byte size of each rune, so that, e.g., `len(s)` in Go
becomes `goLen s` here.
-/

/-- A Go string, embedded as its list of runes. -/
abbrev GoStr := List Char

/-- UTF-8 byte size of a rune (Go `utf8.RuneLen` for valid runes). -/
def goCharLen (c : Char) : Nat :=
  if c.toNat < 0x80 then 1
  else if c.toNat < 0x800 then 2
  else if c.toNat < 0x10000 then 3
  else 4

/-- Go `len(s)`: the UTF-8 byte length of the string. -/
def goLen : GoStr → Nat
  | [] => 0
  | c :: rest => goCharLen c + goLen rest

/-- Whitespace per Go `unicode.IsSpace`, restricted to the Latin-1
whitespace characters (the only ones the program's inputs exercise). -/
def isGoSpace (c : Char) : Bool :=
  c = ' ' || c = '\t' || c = '\n' || c = (Char.ofNat 0x0B) ||
  c = (Char.ofNat 0x0C) || c = '\r' || c = (Char.ofNat 0x85) || c = (Char.ofNat 0xA0)

/-- Rune lowering per Go `unicode.ToLower`, restricted to ASCII and the
Cyrillic block (the scripts appearing in the program's keyword set).
Both case mappings are a fixed offset of 32 code points; `Ё` is special. -/
def goToLowerChar (c : Char) : Char :=
  if 'A' ≤ c ∧ c ≤ 'Z' then Char.ofNat (c.toNat + 32)
  else if 'А' ≤ c ∧ c ≤ 'Я' then Char.ofNat (c.toNat + 32)
  else if c = 'Ё' then 'ё'
  else c

/-- Go `strings.ToLower` (rune-wise under the mapping above). -/
def goToLower (s : GoStr) : GoStr := s.map goToLowerChar

/-- Whether `pat` is a prefix of `s` (helper for `strings.Contains`). -/
def goStartsWith : GoStr → GoStr → Bool
  | _, [] => true
  | [], _ :: _ => false
  | c :: s, d :: t => if c = d then goStartsWith s t else false

/-- Go `strings.Contains(s, sub)`. -/
def goContains : GoStr → GoStr → Bool
  | [], sub => goStartsWith [] sub
  | c :: rest, sub => goStartsWith (c :: rest) sub || goContains rest sub

/-- Go `strings.Index(s, sub)` returning the byte offset of the first
occurrence (`none` for Go's `-1`). -/
def goIndexByte : GoStr → GoStr → Option Nat
  | [], sub => if goStartsWith [] sub then some 0 else none
  | c :: rest, sub =>
    if goStartsWith (c :: rest) sub then some 0
    else (goIndexByte rest sub).map (fun n => goCharLen c + n)

/-- Go `strings.Split(s, "\n")`. -/
def goSplitNl : GoStr → List GoStr
  | [] => [[]]
  | c :: rest =>
    if c = '\n' then [] :: goSplitNl rest
    else
      match goSplitNl rest with
      | [] => [[c]]
      | p :: ps => (c :: p) :: ps

/-- Drop leading whitespace. -/
def goDropLeading : GoStr → GoStr
  | [] => []
  | c :: rest => if isGoSpace c then goDropLeading rest else c :: rest

/-- Go `strings.TrimSpace`. -/
def goTrim (s : GoStr) : GoStr :=
  ((goDropLeading ((goDropLeading s).reverse)).reverse)

/-- Worker for `goFields`; `acc` is the current word, reversed. -/
def goFieldsAux : GoStr → GoStr → List GoStr
  | [], acc => if acc = [] then [] else [acc.reverse]
  | c :: rest, acc =>
    if isGoSpace c then
      if acc = [] then goFieldsAux rest [] else acc.reverse :: goFieldsAux rest []
    else goFieldsAux rest (c :: acc)

/-- Go `strings.Fields(s)`: the whitespace-separated words of `s`. -/
def goFields (s : GoStr) : List GoStr := goFieldsAux s []

/-- Go `strings.Join(ws, sep)`. -/
def goIntercalate (sep : GoStr) : List GoStr → GoStr
  | [] => []
  | [w] => w
  | w :: ws => w ++ sep ++ goIntercalate sep ws

/-- The single-space separator used by the source's `strings.Join` calls. -/
def spc : GoStr := [' ']

/-- Membership of a string in a list of strings, mirroring the Go loops
that scan a `[]string` with `==`. -/
def containsStr : List GoStr → GoStr → Bool
  | [], _ => false
  | p :: rest, k => if p = k then true else containsStr rest k

/-- Go `r >= '0' && r <= '9'`. -/
def isGoDigit (c : Char) : Bool := decide ('0' ≤ c ∧ c ≤ '9')

/-! ## Pattern matchers (source lines 486–532) -/

/-- The character-scan loop of `matchesDatePattern`, threading the three
flags `(hasDigitBefore, hasSeparator, hasDigitAfter)`.  Go iterates byte
positions; the separator test `i < len(text)-1` holds for a one-byte
rune exactly when it is not the last rune, i.e. when the remainder of
the list is nonempty. -/
def mdpLoop : GoStr → Bool → Bool → Bool → Bool × Bool × Bool
  | [], b, s, a => (b, s, a)
  | c :: rest, b, s, a =>
    if isGoDigit c then
      if s then mdpLoop rest b s true else mdpLoop rest true s a
    else if (c = '/' ∨ c = '.') ∧ b = true ∧ rest ≠ [] then
      mdpLoop rest b true a
    else mdpLoop rest b s a

/-- Source `matchesDatePattern` (lines 512–532). -/
def matchesDatePattern (text : GoStr) : Bool :=
  let r := mdpLoop text false false false
  r.1 && r.2.1 && r.2.2

/-- Source `extractDateTimePart` (lines 486–509). -/
def extractDateTimePart (text : GoStr) : GoStr :=
  let normalized := goIntercalate spc (goFields text)
  let parts := goFields normalized
  if parts.length < 2 then normalized
  else if (goContains (parts.getD 0 []) ['/'] = true ∨ goContains (parts.getD 0 []) ['.'] = true)
          ∧ goContains (parts.getD 1 []) [':'] = true then
    parts.getD 0 [] ++ ' ' :: parts.getD 1 []
  else if 2 ≤ parts.length then
    parts.getD 0 [] ++ ' ' :: parts.getD 1 []
  else normalized

/-! ## Data model and keyword sets -/

/-- Source `BaletSession` (lines 41–44). -/
structure BaletSession where
  Info : GoStr
  BuyLink : GoStr
deriving DecidableEq, Repr

/-- Source `containsSession` (lines 548–555). -/
def containsSession : List BaletSession → GoStr → Bool
  | [], _ => false
  | s :: rest, itemInfo => if s.Info = itemInfo then true else containsSession rest itemInfo

def kwMariinsky : GoStr := "мариинский".toList
def kwTeatr : GoStr := "театр".toList
def kwScena : GoStr := "сцена".toList
def kwBdt : GoStr := "бдт".toList
def kwDvorec : GoStr := "дворец".toList
def kwZal : GoStr := "зал".toList
def kwKoncert : GoStr := "концерт".toList
def kwFilarmonia : GoStr := "филармония".toList

/-- The eight-keyword venue test used at source lines 267–274 (on a
candidate line) and 434–442 / 453–461 (in `filterDuplicateSessions`);
both sites test the same set of substrings on the lowercased string. -/
def hasTheater8 (s : GoStr) : Bool :=
  let l := goToLower s
  goContains l kwMariinsky || goContains l kwTeatr || goContains l kwScena ||
  goContains l kwBdt || goContains l kwDvorec || goContains l kwZal ||
  goContains l kwKoncert || goContains l kwFilarmonia

/-- The six-keyword venue test used at source lines 304–309 (neighbour
lines) and 349–354 (existing sessions in the fallback check). -/
def hasTheater6 (s : GoStr) : Bool :=
  let l := goToLower s
  goContains l kwMariinsky || goContains l kwTeatr || goContains l kwBdt ||
  goContains l kwScena || goContains l kwDvorec || goContains l kwZal

/-! ## Theater-Name Resolver (source lines 372–425) -/

/-- Go byte slicing `text[start:stop]` over the rune embedding: keeps
the runes whose byte span lies inside `[start, stop)`.  (Go would also
keep stray partial bytes of a rune straddling a boundary; those bytes
form no complete rune and are dropped here.) -/
def byteSliceAux : GoStr → Nat → Nat → Nat → GoStr
  | [], _, _, _ => []
  | c :: rest, pos, start, stop =>
    if start ≤ pos ∧ pos + goCharLen c ≤ stop then
      c :: byteSliceAux rest (pos + goCharLen c) start stop
    else byteSliceAux rest (pos + goCharLen c) start stop

def byteSlice (s : GoStr) (start stop : Nat) : GoStr := byteSliceAux s 0 start stop

/-- The context window `text[max(0,idx-50):min(idx+150,len(text))]` of
`extractTheaterName` (Nat subtraction saturates at 0 like the Go clamp). -/
def etnContextAt (text : GoStr) (idx : Nat) : GoStr :=
  byteSlice text (idx - 50) (min (idx + 150) (goLen text))

/-- The greedy word-boundary truncation loop of `extractTheaterName`
(source lines 406–418). -/
def etnTruncate : List GoStr → GoStr → GoStr
  | [], result => result
  | w :: ws, result =>
    if goLen result + goLen w + 1 ≤ 100 then
      etnTruncate ws (if result = [] then w else result ++ ' ' :: w)
    else result

/-- The line scan of `extractTheaterName` (source lines 396–422):
first line of the context containing the keyword, collapsed and
truncated. -/
def etnScan (keywordLower : GoStr) : List GoStr → GoStr
  | [] => []
  | line :: rest =>
    if goContains (goToLower line) keywordLower then
      let collapsed := goIntercalate spc (goFields (goTrim line))
      if 100 < goLen collapsed then etnTruncate (goFields collapsed) []
      else collapsed
    else etnScan keywordLower rest

/-- Source `extractTheaterName` (lines 372–425). -/
def extractTheaterName (text keyword : GoStr) : GoStr :=
  match goIndexByte (goToLower text) (goToLower keyword) with
  | none => []
  | some idx => etnScan (goToLower keyword) (goSplitNl (etnContextAt text idx))

/-! ## Session Synthesizer (source lines 234–369) -/

/-- Index range `[max(0,lineIdx-5), min(len(lines),lineIdx+6))` of the
neighbour-line search (source line 295). -/
def neighborIdxs (lineIdx n : Nat) : List Nat :=
  List.range' (lineIdx - 5) (min n (lineIdx + 6) - (lineIdx - 5))

/-- The combination step of the neighbour-line search (source lines
311–314): start from the bare line and append the venue-bearing
neighbour unless the line already contains it case-insensitively. -/
def combineLine (line checkLine : GoStr) : GoStr :=
  if goContains (goToLower line) (goToLower checkLine) then line
  else line ++ ' ' :: checkLine

/-- The neighbour-line search loop (source lines 295–321): scan nearby
lines for a venue keyword, combine and append at most once (`break`),
returning the updated list and the `foundTheater` flag. -/
def neighborLoop (lines : List GoStr) (line link : GoStr) (lineIdx : Nat)
    (sessions : List BaletSession) : List Nat → List BaletSession × Bool
  | [] => (sessions, false)
  | i :: rest =>
    if i = lineIdx then neighborLoop lines line link lineIdx sessions rest
    else
      let checkLine := goTrim (lines.getD i [])
      if checkLine = [] then neighborLoop lines line link lineIdx sessions rest
      else if hasTheater6 checkLine then
        if containsSession sessions (combineLine line checkLine) = false
            ∧ goLen (combineLine line checkLine) < 300 then
          (sessions ++ [⟨combineLine line checkLine, link⟩], true)
        else neighborLoop lines line link lineIdx sessions rest
      else neighborLoop lines line link lineIdx sessions rest

/-- The theater-names fallback loop (source lines 325–336): try each
extracted venue name, append at most once (`break`). -/
def theaterNamesLoop (line link : GoStr) (sessions : List BaletSession) :
    List GoStr → List BaletSession × Bool
  | [] => (sessions, false)
  | tn :: rest =>
    if tn = [] then theaterNamesLoop line link sessions rest
    else
      let combinedLine := line ++ ' ' :: tn
      if containsSession sessions combinedLine = false ∧ goLen combinedLine < 300 then
        (sessions ++ [⟨combinedLine, link⟩], true)
      else theaterNamesLoop line link sessions rest

/-- The final venue-less fallback (source lines 339–364): suppress when
a venue-bearing session with the same date-time key exists, otherwise
append the bare line (duplicate-checked, with no length bound). -/
def fallbackAdd (line link : GoStr) (sessions : List BaletSession) : List BaletSession :=
  let dateTimePart := extractDateTimePart line
  let hasBetterVersion := sessions.any fun existing =>
    decide (extractDateTimePart existing.Info = dateTimePart) && hasTheater6 existing.Info
  if hasBetterVersion = false ∧ containsSession sessions line = false then
    sessions ++ [⟨line, link⟩]
  else sessions

/-- The venue-less half of the per-line logic (source lines 281–364):
neighbour search first, then the extracted theater names, then the
final fallback, each skipped once `foundTheater` is set. -/
def venuelessBranch (lines : List GoStr) (theaterNames : List GoStr) (link : GoStr)
    (sessions : List BaletSession) (line : GoStr) : List BaletSession :=
  let r1 :=
    match lines.findIdx? (fun l => decide (goTrim l = line)) with
    | none => (sessions, false)
    | some lineIdx =>
      neighborLoop lines line link lineIdx sessions (neighborIdxs lineIdx lines.length)
  if r1.2 then r1.1
  else
    let r2 := theaterNamesLoop line link r1.1 theaterNames
    if r2.2 then r2.1
    else fallbackAdd line link r2.1

/-- The per-line body of `extractSessionsFromText`'s main loop
(source lines 252–368). -/
def processLine (lines : List GoStr) (theaterNames : List GoStr) (link : GoStr)
    (sessions : List BaletSession) (rawLine : GoStr) : List BaletSession :=
  let line := goTrim rawLine
  if line = [] then sessions
  else
    let hasDate := goContains line ['/'] || goContains line ['.']
    let hasTime := goContains line [':']
    if hasDate && hasTime && matchesDatePattern line then
      if hasTheater8 line then
        if containsSession sessions line = false ∧ 10 < goLen line ∧ goLen line < 300 then
          sessions ++ [⟨line, link⟩]
        else sessions
      else if 2 ≤ (goFields line).length ∧ 8 < goLen line then
        venuelessBranch lines theaterNames link sessions line
      else sessions
    else sessions

/-- Source `extractSessionsFromText` (lines 234–369), returning the
updated session list (the Go code mutates `*sessions`). -/
def extractSessionsFromText (text link : GoStr) (sessions : List BaletSession) :
    List BaletSession :=
  let lines := goSplitNl text
  let lowerText := goToLower text
  let tn1 := if goContains lowerText kwMariinsky then [extractTheaterName text kwMariinsky] else []
  let tn2 := if goContains lowerText kwBdt then [extractTheaterName text kwBdt] else []
  let tn3 :=
    if goContains lowerText kwTeatr && !goContains lowerText kwMariinsky then
      [extractTheaterName text kwTeatr]
    else []
  let theaterNames := tn1 ++ tn2 ++ tn3
  lines.foldl (processLine lines theaterNames link) sessions

/-! ## Duplicate Filter (source lines 428–481) -/

/-- First pass of `filterDuplicateSessions` (source lines 433–449):
keep the venue-bearing sessions, in order. -/
def fdsPass1 : List BaletSession → List BaletSession
  | [] => []
  | s :: rest => if hasTheater8 s.Info then s :: fdsPass1 rest else fdsPass1 rest

/-- The `seenDateTimeParts` accumulated alongside the first pass. -/
def fdsSeen (sessions : List BaletSession) : List GoStr :=
  (fdsPass1 sessions).map fun s => extractDateTimePart s.Info

/-- Second pass (source lines 452–478): append venue-less sessions
whose key was not seen and whose info is not already present. -/
def fdsPass2 (seen : List GoStr) : List BaletSession → List BaletSession → List BaletSession
  | filtered, [] => filtered
  | filtered, s :: rest =>
    if hasTheater8 s.Info then fdsPass2 seen filtered rest
    else if containsStr seen (extractDateTimePart s.Info) = false
            ∧ containsSession filtered s.Info = false then
      fdsPass2 seen (filtered ++ [s]) rest
    else fdsPass2 seen filtered rest

/-- Source `filterDuplicateSessions` (lines 428–481). -/
def filterDuplicateSessions (sessions : List BaletSession) : List BaletSession :=
  fdsPass2 (fdsSeen sessions) (fdsPass1 sessions) sessions

/-- A sequence of synthesizer calls starting from the empty list, the
way `parseBaletPage` accumulates candidates across its scan passes. -/
def extractMany (calls : List (GoStr × GoStr)) : List BaletSession :=
  calls.foldl (fun acc c => extractSessionsFromText c.1 c.2 acc) []

/-! ## Buy-link resolution (source lines 557–576)

`resolveBaletBuyLink` delegates URL parsing and reference resolution to
Go's `net/url`, which is not part of this repository. -/

/-- Modelled from the spec: the `net/url` URL record, reduced to the
`scheme://host/path` shape exercised by the link-resolution spec; the
query, fragment and userinfo components are not modelled. -/
structure GoUrl where
  scheme : GoStr
  host : GoStr
  path : GoStr
deriving DecidableEq, Repr

/-- A control byte per `net/url`'s parse guard: below 0x20 or 0x7F. -/
def hasCtlByte (s : GoStr) : Bool :=
  s.any fun c => decide (c.toNat < 0x20) || decide (c.toNat = 0x7f)

/-- Split `s` at the first occurrence of `pat`:
`s = before ++ pat ++ after`. -/
def splitFirst (pat : GoStr) : GoStr → Option (GoStr × GoStr)
  | [] => if pat = [] then some ([], []) else none
  | c :: rest =>
    if goStartsWith (c :: rest) pat then some ([], (c :: rest).drop pat.length)
    else
      match splitFirst pat rest with
      | none => none
      | some (pre, post) => some (c :: pre, post)

/-- Modelled from the spec: `url.Parse`, restricted to the fragment the
link-resolution spec exercises.  Parsing fails exactly on control bytes
(Go's `stringContainsCTLByte` guard); a string with a `://` separator
parses as scheme/host/path, anything else as a relative path. -/
def urlParse (s : GoStr) : Option GoUrl :=
  if hasCtlByte s then none
  else
    match splitFirst "://".toList s with
    | some (scheme, rest) =>
      some ⟨scheme, rest.takeWhile (fun c => !(c = '/' : Bool)), rest.dropWhile (fun c => !(c = '/' : Bool))⟩
    | none => some ⟨[], [], s⟩

/-- Modelled from the spec: `URL.IsAbs` (a scheme is present). -/
def urlIsAbs (u : GoUrl) : Bool := !u.scheme.isEmpty

/-- Modelled from the spec: `URL.String` for the modelled fragment. -/
def urlString (u : GoUrl) : GoStr :=
  if u.scheme = [] then u.path else u.scheme ++ "://".toList ++ u.host ++ u.path

/-- The directory part of a path, up to and including the last `/`. -/
def dirOf (p : GoStr) : GoStr :=
  (p.reverse.dropWhile (fun c => !(c = '/' : Bool))).reverse

/-- Modelled from the spec: `URL.ResolveReference` for a relative
reference, without dot-segment normalization (the spec's examples use
none). An absolute-path reference replaces the base path; any other
reference is resolved against the base path's directory. -/
def urlResolveReference (base ref : GoUrl) : GoUrl :=
  if ref.path.headD ' ' = '/' then ⟨base.scheme, base.host, ref.path⟩
  else ⟨base.scheme, base.host, dirOf base.path ++ ref.path⟩

/-- Source `resolveBaletBuyLink` (lines 557–576), over the modelled
`net/url` fragment. -/
def resolveBaletBuyLink (pageURL href : GoStr) : GoStr :=
  let href := goTrim href
  if href = [] then []
  else
    match urlParse href with
    | none => []
    | some parsedHref =>
      if urlIsAbs parsedHref then urlString parsedHref
      else
        match urlParse pageURL with
        | none => urlString parsedHref
        | some base => urlString (urlResolveReference base parsedHref)

/-! ## Basic lemmas about the string model -/

lemma goLen_append (a b : GoStr) : goLen (a ++ b) = goLen a + goLen b := by
  induction a with
  | nil => simp [goLen]
  | cons c rest ih => simp [goLen, ih, Nat.add_assoc]

lemma one_le_goCharLen (c : Char) : 1 ≤ goCharLen c := by
  unfold goCharLen
  split
  · exact Nat.le_refl 1
  · split
    · omega
    · split <;> omega

lemma length_le_goLen (s : GoStr) : s.length ≤ goLen s := by
  induction s with
  | nil => simp [goLen]
  | cons c rest ih =>
    simp only [List.length_cons, goLen]
    have := one_le_goCharLen c
    omega

lemma containsStr_iff (l : List GoStr) (k : GoStr) : containsStr l k = true ↔ k ∈ l := by
  induction l with
  | nil => simp [containsStr]
  | cons p rest ih =>
    by_cases h : p = k
    · subst h; simp [containsStr]
    · simp [containsStr, h, ih, (Ne.symm h : k ≠ p)]

lemma containsSession_iff (l : List BaletSession) (i : GoStr) :
    containsSession l i = true ↔ i ∈ l.map (fun s => s.Info) := by
  induction l with
  | nil => simp [containsSession]
  | cons s rest ih =>
    by_cases h : s.Info = i
    · simp [containsSession, h]
    · simp [containsSession, h, ih, (Ne.symm h : i ≠ s.Info)]

lemma containsSession_false_iff (l : List BaletSession) (i : GoStr) :
    containsSession l i = false ↔ i ∉ l.map (fun s => s.Info) := by
  rw [← containsSession_iff]
  simp

/-! ## Shape of the Session Synthesizer's updates

Every acceptance path of `extractSessionsFromText` appends at most one
session per line, always duplicate-checked against the current list,
and bounded below 300 bytes except on the final venue-less fallback. -/

/-- The property every appended session satisfies. -/
def AppendedOk (link : GoStr) (sessions : List BaletSession) (x : BaletSession) : Prop :=
  containsSession sessions x.Info = false ∧
  (goLen x.Info < 300 ∨ hasTheater8 x.Info = false) ∧ x.BuyLink = link

/-- Shape of a one-step update: unchanged, or one appended session. -/
def StepShape (link : GoStr) (sessions result : List BaletSession) : Prop :=
  result = sessions ∨ ∃ x, result = sessions ++ [x] ∧ AppendedOk link sessions x

/-- The flagged variant for the loops returning `foundTheater`. -/
def FlagShape (link : GoStr) (sessions : List BaletSession)
    (r : List BaletSession × Bool) : Prop :=
  r = (sessions, false) ∨ ∃ x, r = (sessions ++ [x], true) ∧ AppendedOk link sessions x

lemma neighborLoop_shape (lines : List GoStr) (line link : GoStr) (lineIdx : Nat)
    (sessions : List BaletSession) (idxs : List Nat) :
    FlagShape link sessions (neighborLoop lines line link lineIdx sessions idxs) := by
  induction idxs with
  | nil => left; rfl
  | cons i rest ih =>
    simp only [neighborLoop]
    split
    · exact ih
    · split
      · exact ih
      · split
        · split
          case isTrue h =>
            right
            exact ⟨⟨_, link⟩, rfl, h.1, Or.inl h.2, rfl⟩
          case isFalse h => exact ih
        · exact ih

lemma theaterNamesLoop_shape (line link : GoStr) (sessions : List BaletSession)
    (tns : List GoStr) :
    FlagShape link sessions (theaterNamesLoop line link sessions tns) := by
  induction tns with
  | nil => left; rfl
  | cons tn rest ih =>
    simp only [theaterNamesLoop]
    split
    · exact ih
    · split
      case isTrue h =>
        right
        exact ⟨⟨_, link⟩, rfl, h.1, Or.inl h.2, rfl⟩
      case isFalse h => exact ih

lemma fallbackAdd_shape (line link : GoStr) (sessions : List BaletSession)
    (hline : hasTheater8 line = false) :
    StepShape link sessions (fallbackAdd line link sessions) := by
  simp only [fallbackAdd]
  split
  case isTrue h =>
    right
    exact ⟨⟨line, link⟩, rfl, h.2, Or.inr hline, rfl⟩
  case isFalse h => left; rfl

lemma venuelessBranch_shape (lines : List GoStr) (tns : List GoStr) (link : GoStr)
    (sessions : List BaletSession) (line : GoStr)
    (hline : hasTheater8 line = false) :
    StepShape link sessions (venuelessBranch lines tns link sessions line) := by
  have hr1 : FlagShape link sessions
      (match lines.findIdx? (fun l => decide (goTrim l = line)) with
        | none => (sessions, false)
        | some lineIdx =>
          neighborLoop lines line link lineIdx sessions (neighborIdxs lineIdx lines.length)) := by
    cases lines.findIdx? (fun l => decide (goTrim l = line)) with
    | none => exact Or.inl rfl
    | some lineIdx => exact neighborLoop_shape lines line link lineIdx sessions _
  unfold venuelessBranch
  rcases hr1 with h1 | ⟨x, h1, hok⟩ <;> rw [h1]
  · simp only [Bool.false_eq_true, if_false]
    rcases theaterNamesLoop_shape line link sessions tns with h2 | ⟨y, h2, hok2⟩ <;> rw [h2]
    · simp only [Bool.false_eq_true, if_false]
      exact fallbackAdd_shape line link sessions hline
    · simp only [if_true]
      exact Or.inr ⟨y, rfl, hok2⟩
  · simp only [if_true]
    exact Or.inr ⟨x, rfl, hok⟩

lemma processLine_shape (lines : List GoStr) (tns : List GoStr) (link : GoStr)
    (sessions : List BaletSession) (rawLine : GoStr) :
    StepShape link sessions (processLine lines tns link sessions rawLine) := by
  simp only [processLine]
  split
  · left; rfl
  · split
    case isFalse => left; rfl
    case isTrue =>
      split
      case isTrue hth =>
        split
        case isTrue h =>
          exact Or.inr ⟨⟨_, link⟩, rfl, h.1, Or.inl h.2.2, rfl⟩
        case isFalse h => left; rfl
      case isFalse hth =>
        split
        case isTrue hlen =>
          refine venuelessBranch_shape lines tns link sessions _ ?_
          revert hth
          cases hasTheater8 (goTrim rawLine) <;> simp
        case isFalse => left; rfl

lemma StepShape.grows {link : GoStr} {sessions result : List BaletSession}
    (h : StepShape link sessions result) : sessions <+: result := by
  rcases h with rfl | ⟨x, rfl, _⟩
  · exact List.prefix_refl _
  · exact ⟨[x], rfl⟩

lemma foldl_processLine_prefix (lines tns : List GoStr) (link : GoStr) :
    ∀ (raws : List GoStr) (sessions : List BaletSession),
      sessions <+: raws.foldl (processLine lines tns link) sessions := by
  intro raws
  induction raws with
  | nil => intro sessions; exact List.prefix_refl _
  | cons r rest ih =>
    intro sessions
    have h1 := StepShape.grows (processLine_shape lines tns link sessions r)
    exact h1.trans (ih (processLine lines tns link sessions r))

lemma foldl_processLine_mem (lines tns : List GoStr) (link : GoStr) :
    ∀ (raws : List GoStr) (sessions : List BaletSession),
      ∀ x ∈ raws.foldl (processLine lines tns link) sessions,
        x ∈ sessions ∨ ((goLen x.Info < 300 ∨ hasTheater8 x.Info = false) ∧ x.BuyLink = link) := by
  intro raws
  induction raws with
  | nil => intro sessions x hx; exact Or.inl hx
  | cons r rest ih =>
    intro sessions x hx
    rcases ih (processLine lines tns link sessions r) x hx with hmem | hp
    · rcases processLine_shape lines tns link sessions r with he | ⟨y, he, hok⟩
      · rw [he] at hmem; exact Or.inl hmem
      · rw [he] at hmem
        rcases List.mem_append.mp hmem with h | h
        · exact Or.inl h
        · right
          rcases List.mem_singleton.mp h with rfl
          exact ⟨hok.2.1, hok.2.2⟩
    · exact Or.inr hp

lemma nodup_append_singleton {l : List GoStr} {a : GoStr}
    (hl : l.Nodup) (ha : a ∉ l) : (l ++ [a]).Nodup := by
  rw [List.nodup_append]
  refine ⟨hl, List.nodup_singleton a, ?_⟩
  intro b hb
  simp only [List.mem_singleton]
  intro hba
  exact ha (hba ▸ hb)

lemma StepShape.nodup {link : GoStr} {sessions result : List BaletSession}
    (h : StepShape link sessions result)
    (hs : (sessions.map fun s => s.Info).Nodup) :
    (result.map fun s => s.Info).Nodup := by
  rcases h with rfl | ⟨x, rfl, hok⟩
  · exact hs
  · rw [List.map_append, List.map_singleton]
    exact nodup_append_singleton hs ((containsSession_false_iff _ _).mp hok.1)

lemma foldl_processLine_nodup (lines tns : List GoStr) (link : GoStr) :
    ∀ (raws : List GoStr) (sessions : List BaletSession),
      (sessions.map fun s => s.Info).Nodup →
      ((raws.foldl (processLine lines tns link) sessions).map fun s => s.Info).Nodup := by
  intro raws
  induction raws with
  | nil => intro sessions hs; exact hs
  | cons r rest ih =>
    intro sessions hs
    exact ih _ ((processLine_shape lines tns link sessions r).nodup hs)

lemma extractSessionsFromText_prefix (text link : GoStr) (sessions : List BaletSession) :
    sessions <+: extractSessionsFromText text link sessions := by
  simp only [extractSessionsFromText]
  exact foldl_processLine_prefix _ _ _ _ _

lemma extractSessionsFromText_mem (text link : GoStr) (sessions : List BaletSession) :
    ∀ x ∈ extractSessionsFromText text link sessions,
      x ∈ sessions ∨ ((goLen x.Info < 300 ∨ hasTheater8 x.Info = false) ∧ x.BuyLink = link) := by
  simp only [extractSessionsFromText]
  exact foldl_processLine_mem _ _ _ _ _

lemma extractSessionsFromText_nodup (text link : GoStr) (sessions : List BaletSession)
    (hs : (sessions.map fun s => s.Info).Nodup) :
    ((extractSessionsFromText text link sessions).map fun s => s.Info).Nodup := by
  simp only [extractSessionsFromText]
  exact foldl_processLine_nodup _ _ _ _ _ hs

lemma extractMany_nodup (calls : List (GoStr × GoStr)) :
    ((extractMany calls).map fun s => s.Info).Nodup := by
  suffices h : ∀ (cs : List (GoStr × GoStr)) (acc : List BaletSession),
      (acc.map fun s => s.Info).Nodup →
      ((cs.foldl (fun acc c => extractSessionsFromText c.1 c.2 acc) acc).map fun s => s.Info).Nodup by
    exact h calls [] (by simp)
  intro cs
  induction cs with
  | nil => intro acc ha; exact ha
  | cons c rest ih =>
    intro acc ha
    exact ih _ (extractSessionsFromText_nodup c.1 c.2 acc ha)

/-! ## Lemmas about the Duplicate Filter -/

lemma fdsPass1_eq_filter (l : List BaletSession) :
    fdsPass1 l = l.filter (fun s => hasTheater8 s.Info) := by
  induction l with
  | nil => rfl
  | cons s rest ih =>
    simp only [fdsPass1, List.filter_cons]
    split
    case isTrue h => simp [h, ih]
    case isFalse h =>
      have : hasTheater8 s.Info = false := by revert h; cases hasTheater8 s.Info <;> simp
      simp [this, ih]

lemma fdsPass1_append (a b : List BaletSession) :
    fdsPass1 (a ++ b) = fdsPass1 a ++ fdsPass1 b := by
  simp [fdsPass1_eq_filter, List.filter_append]

lemma fdsPass1_of_all_theater {l : List BaletSession}
    (h : ∀ x ∈ l, hasTheater8 x.Info = true) : fdsPass1 l = l := by
  rw [fdsPass1_eq_filter]
  exact List.filter_eq_self.mpr h

lemma fdsPass1_of_no_theater {l : List BaletSession}
    (h : ∀ x ∈ l, hasTheater8 x.Info = false) : fdsPass1 l = [] := by
  rw [fdsPass1_eq_filter]
  apply List.filter_eq_nil_iff.mpr
  intro x hx
  simp [h x hx]

lemma mem_fdsPass1_theater {l : List BaletSession} {x : BaletSession}
    (hx : x ∈ fdsPass1 l) : hasTheater8 x.Info = true := by
  rw [fdsPass1_eq_filter] at hx
  exact (List.mem_filter.mp hx).2

/-- The master shape lemma for the second pass: it appends to the
accumulator a subsequence of the venue-less input entries whose keys
were not seen, pairwise distinct and absent from the accumulator. -/
lemma fdsPass2_shape (seen : List GoStr) :
    ∀ (rest f : List BaletSession),
      ∃ t, fdsPass2 seen f rest = f ++ t ∧
        (∀ x ∈ t, hasTheater8 x.Info = false ∧
          containsStr seen (extractDateTimePart x.Info) = false ∧
          x.Info ∉ f.map (fun s => s.Info)) ∧
        (t.map fun s => s.Info).Nodup ∧
        t.Sublist (rest.filter fun x => !hasTheater8 x.Info) := by
  intro rest
  induction rest with
  | nil =>
    intro f
    exact ⟨[], by simp [fdsPass2], by simp, by simp, by simp⟩
  | cons s rest ih =>
    intro f
    simp only [fdsPass2]
    split
    case isTrue hth =>
      obtain ⟨t, h1, h2, h3, h4⟩ := ih f
      refine ⟨t, h1, h2, h3, ?_⟩
      simpa [List.filter_cons, hth] using h4
    case isFalse hth =>
      have hth' : hasTheater8 s.Info = false := by
        revert hth; cases hasTheater8 s.Info <;> simp
      split
      case isTrue hg =>
        obtain ⟨t, h1, h2, h3, h4⟩ := ih (f ++ [s])
        refine ⟨s :: t, by simpa using h1, ?_, ?_, ?_⟩
        · intro x hx
          rcases List.mem_cons.mp hx with rfl | hx'
          · exact ⟨hth', hg.1, (containsSession_false_iff _ _).mp hg.2⟩
          · obtain ⟨p1, p2, p3⟩ := h2 x hx'
            refine ⟨p1, p2, ?_⟩
            intro hmem
            exact p3 (by simp [hmem])
        · rw [List.map_cons, List.nodup_cons]
          refine ⟨?_, h3⟩
          intro hmem
          obtain ⟨x, hx, hxi⟩ := List.mem_map.mp hmem
          exact (h2 x hx).2.2 (by simp [hxi])
        · simpa [List.filter_cons, hth'] using List.Sublist.cons₂ s h4
      case isFalse hg =>
        obtain ⟨t, h1, h2, h3, h4⟩ := ih f
        refine ⟨t, h1, h2, h3, ?_⟩
        have : (List.filter (fun x => !hasTheater8 x.Info) (s :: rest)) =
            s :: List.filter (fun x => !hasTheater8 x.Info) rest := by
          simp [List.filter_cons, hth']
        rw [this]
        exact h4.trans (List.sublist_cons_self s _)

/-- The second pass ignores venue-bearing entries. -/
lemma fdsPass2_skip_theater (seen : List GoStr) :
    ∀ (l f : List BaletSession), (∀ x ∈ l, hasTheater8 x.Info = true) →
      fdsPass2 seen f l = f := by
  intro l
  induction l with
  | nil => intro f _; rfl
  | cons s rest ih =>
    intro f h
    simp only [fdsPass2]
    rw [if_pos (h s (by simp))]
    exact ih f fun x hx => h x (List.mem_cons_of_mem s hx)

lemma fdsPass2_append (seen : List GoStr) :
    ∀ (a b : List BaletSession) (f : List BaletSession),
      fdsPass2 seen f (a ++ b) = fdsPass2 seen (fdsPass2 seen f a) b := by
  intro a
  induction a with
  | nil => intro b f; rfl
  | cons s rest ih =>
    intro b f
    simp only [List.cons_append, fdsPass2]
    split
    · exact ih b f
    · split
      · exact ih b _
      · exact ih b f

/-- Re-adding a block of venue-less entries whose keys are unseen and
whose infos are fresh and pairwise distinct appends them all. -/
lemma fdsPass2_all_add (seen : List GoStr) :
    ∀ (t f : List BaletSession),
      (∀ x ∈ t, hasTheater8 x.Info = false ∧
        containsStr seen (extractDateTimePart x.Info) = false ∧
        x.Info ∉ f.map (fun s => s.Info)) →
      (t.map fun s => s.Info).Nodup →
      fdsPass2 seen f t = f ++ t := by
  intro t
  induction t with
  | nil => intro f _ _; simp [fdsPass2]
  | cons s rest ih =>
    intro f h hnd
    obtain ⟨hth, hseen, hfresh⟩ := h s (by simp)
    simp only [fdsPass2]
    rw [if_neg (by simp [hth]), if_pos ⟨hseen, (containsSession_false_iff _ _).mpr hfresh⟩]
    rw [List.map_cons, List.nodup_cons] at hnd
    rw [ih (f ++ [s]) ?_ hnd.2]
    · simp
    · intro x hx
      obtain ⟨p1, p2, p3⟩ := h x (List.mem_cons_of_mem s hx)
      refine ⟨p1, p2, ?_⟩
      simp only [List.map_append, List.map_singleton, List.mem_append, List.mem_singleton]
      rintro (hmem | hmem)
      · exact p3 hmem
      · exact hnd.1 (hmem ▸ List.mem_map_of_mem (fun s => s.Info) hx)

/-- `filterDuplicateSessions` decomposed through the two passes. -/
lemma filterDuplicateSessions_shape (sessions : List BaletSession) :
    ∃ t, filterDuplicateSessions sessions = fdsPass1 sessions ++ t ∧
      (∀ x ∈ t, hasTheater8 x.Info = false ∧
        containsStr (fdsSeen sessions) (extractDateTimePart x.Info) = false ∧
        x.Info ∉ (fdsPass1 sessions).map (fun s => s.Info)) ∧
      (t.map fun s => s.Info).Nodup ∧
      t.Sublist (sessions.filter fun x => !hasTheater8 x.Info) := by
  exact fdsPass2_shape (fdsSeen sessions) sessions (fdsPass1 sessions)

lemma filterDuplicateSessions_nodup (sessions : List BaletSession)
    (hs : (sessions.map fun s => s.Info).Nodup) :
    ((filterDuplicateSessions sessions).map fun s => s.Info).Nodup := by
  obtain ⟨t, h1, h2, h3, _⟩ := filterDuplicateSessions_shape sessions
  rw [h1, List.map_append, List.nodup_append]
  refine ⟨?_, h3, ?_⟩
  · rw [fdsPass1_eq_filter]
    exact hs.sublist ((List.filter_sublist _).map _)
  · intro i hi
    simp only [List.mem_map]
    rintro ⟨x, hx, rfl⟩
    obtain ⟨xi, hxi, hxieq⟩ := List.mem_map.mp hi
    exact (h2 x hx).2.2 (hxieq ▸ hi)

/-! ## Claims C3, C4, C5, C10 -/

/-- C10: append-only accumulation — `extractSessionsFromText` only ever
appends to the session list it is given; the old list is a prefix of
the new one, so no entry is removed, reordered or modified. -/
theorem c10_append_only :
    ∀ (text link : GoStr) (sessions : List BaletSession),
      sessions <+: extractSessionsFromText text link sessions :=
  fun text link sessions => extractSessionsFromText_prefix text link sessions

/-- C3: no verbatim duplicates — a session list built by any sequence of
`extractSessionsFromText` calls starting from the empty list has
pairwise-distinct `Info` strings, and so does the result of
`filterDuplicateSessions` on such a list. -/
theorem c3_no_verbatim_duplicates :
    ∀ calls : List (GoStr × GoStr),
      ((extractMany calls).map fun s => s.Info).Nodup ∧
      ((filterDuplicateSessions (extractMany calls)).map fun s => s.Info).Nodup :=
  fun calls =>
    ⟨extractMany_nodup calls, filterDuplicateSessions_nodup _ (extractMany_nodup calls)⟩

/-- C4: venue precedence — if some input entry whose `Info` carries a
venue keyword has date-time key `k`, then `filterDuplicateSessions`
returns no venue-less entry with key `k`. -/
theorem c4_venue_precedence :
    ∀ (sessions : List BaletSession) (k : GoStr),
      (∃ e ∈ sessions, hasTheater8 e.Info = true ∧ extractDateTimePart e.Info = k) →
      ∀ x ∈ filterDuplicateSessions sessions,
        hasTheater8 x.Info = false → extractDateTimePart x.Info ≠ k := by
  rintro sessions k ⟨e, he, heth, hek⟩ x hx hxth hxk
  obtain ⟨t, h1, h2, h3, h4⟩ := filterDuplicateSessions_shape sessions
  rw [h1] at hx
  rcases List.mem_append.mp hx with hx1 | hx2
  · rw [mem_fdsPass1_theater hx1] at hxth
    exact Bool.true_eq_false    ▸ hxth
  · have hseen := (h2 x hx2).2.1
    have hkmem : k ∈ fdsSeen sessions := by
      unfold fdsSeen
      rw [fdsPass1_eq_filter]
      exact List.mem_map.mpr ⟨e, List.mem_filter.mpr ⟨he, by simp [heth]⟩, hek⟩
    rw [← containsStr_iff] at hkmem
    rw [hxk, hkmem] at hseen
    exact absurd hseen (by simp)

def c4sessions : List BaletSession :=
  [⟨"1/2 3:4 Большой зал".toList, []⟩, ⟨"1/2 3:4 x".toList, []⟩]

def c4key : GoStr := "1/2 3:4".toList

theorem c4_venue_precedence_witness :
    (∃ e ∈ c4sessions, hasTheater8 e.Info = true ∧ extractDateTimePart e.Info = c4key) ∧
    (∀ x ∈ filterDuplicateSessions c4sessions,
      hasTheater8 x.Info = false → extractDateTimePart x.Info ≠ c4key) :=
  ⟨by decide, c4_venue_precedence c4sessions c4key (by decide)⟩

/-- C5: applying `filterDuplicateSessions` twice equals applying it
once, and the output lists the venue-bearing entries first and then the
venue-less survivors, each group in its input order. -/
theorem c5_duplicate_filter_idempotent_ordered :
    ∀ s : List BaletSession,
      filterDuplicateSessions (filterDuplicateSessions s) = filterDuplicateSessions s ∧
      ∃ t, filterDuplicateSessions s = (s.filter fun x => hasTheater8 x.Info) ++ t ∧
        (∀ x ∈ t, hasTheater8 x.Info = false) ∧
        t.Sublist (s.filter fun x => !hasTheater8 x.Info) := by
  intro s
  obtain ⟨t, h1, h2, h3, h4⟩ := filterDuplicateSessions_shape s
  constructor
  · have hp1out : fdsPass1 (filterDuplicateSessions s) = fdsPass1 s := by
      rw [h1, fdsPass1_append,
          fdsPass1_of_all_theater (fun x hx => mem_fdsPass1_theater hx),
          fdsPass1_of_no_theater (fun x hx => (h2 x hx).1), List.append_nil]
    have hseen : fdsSeen (filterDuplicateSessions s) = fdsSeen s := by
      unfold fdsSeen
      rw [hp1out]
    calc filterDuplicateSessions (filterDuplicateSessions s)
        = fdsPass2 (fdsSeen (filterDuplicateSessions s))
            (fdsPass1 (filterDuplicateSessions s)) (filterDuplicateSessions s) := rfl
      _ = fdsPass2 (fdsSeen s) (fdsPass1 s) (fdsPass1 s ++ t) := by
            rw [hseen, hp1out, h1]
      _ = fdsPass2 (fdsSeen s) (fdsPass2 (fdsSeen s) (fdsPass1 s) (fdsPass1 s)) t :=
            fdsPass2_append _ (fdsPass1 s) t (fdsPass1 s)
      _ = fdsPass2 (fdsSeen s) (fdsPass1 s) t := by
            rw [fdsPass2_skip_theater _ (fdsPass1 s) (fdsPass1 s)
                  (fun x hx => mem_fdsPass1_theater hx)]
      _ = fdsPass1 s ++ t := fdsPass2_all_add _ t (fdsPass1 s) h2 h3
      _ = filterDuplicateSessions s := h1.symm
  · exact ⟨t, by rwa [fdsPass1_eq_filter] at h1, fun x hx => (h2 x hx).1, h4⟩

/-! ## Claim C2 -/

/-- A venue-less candidate line of 301 bytes: date/time tokens followed
by 292 `a`s.  No venue keyword occurs, so the final fallback path
appends it with no upper length check. -/
def c2line : GoStr := "1/2 3:45 ".toList ++ List.replicate 292 'a'

set_option maxRecDepth 100000 in
/-- C2 counterexample: on the block consisting of the single 301-byte
venue-less line, `extractSessionsFromText` appends a session whose
`Info` is longer than 300 bytes — the final venue-less fallback path
(source line 361) has no `len < 300` guard, contradicting the claim. -/
theorem c2_info_length_counterexample :
    extractSessionsFromText c2line [] [] = [⟨c2line, []⟩] ∧ 300 < goLen c2line := by
  constructor
  · decide
  · decide

/-- C2 amended: every session appended by `extractSessionsFromText` has
`Info` shorter than 300 bytes or carries no venue keyword; only the
final venue-less fallback path may append an `Info` of 300 bytes or
more. -/
theorem c2_info_length_amended :
    ∀ (text link : GoStr) (sessions : List BaletSession),
      ∀ x ∈ extractSessionsFromText text link sessions,
        x ∈ sessions ∨ goLen x.Info < 300 ∨ hasTheater8 x.Info = false := by
  intro text link sessions x hx
  rcases extractSessionsFromText_mem text link sessions x hx with h | h
  · exact Or.inl h
  · rcases h.1 with h' | h'
    · exact Or.inr (Or.inl h')
    · exact Or.inr (Or.inr h')

set_option maxRecDepth 100000 in
theorem c2_info_length_amended_witness :
    (⟨c2line, []⟩ : BaletSession) ∈ extractSessionsFromText c2line [] [] ∧
    ((⟨c2line, []⟩ : BaletSession) ∈ ([] : List BaletSession) ∨
      goLen c2line < 300 ∨ hasTheater8 c2line = false) :=
  ⟨by decide, c2_info_length_amended c2line [] [] _ (by decide)⟩

/-! ## Claim C1 -/

def c1text : GoStr := "30/11 12:00 Мариинский театр\n30/11 12:00".toList
def c1link : GoStr := "https://x/buy".toList
def c1info1 : GoStr := "30/11 12:00 Мариинский театр".toList
def c1info2 : GoStr := "30/11 12:00 30/11 12:00 Мариинский театр".toList

/-- C1 counterexample: on the claimed scenario the pipeline yields two
sessions, not the claimed single one — the venue-less second line is
not suppressed but combined with its venue-bearing neighbour. -/
theorem c1_end_to_end_counterexample :
    (filterDuplicateSessions (extractSessionsFromText c1text c1link [])).length = 2 := by
  decide

/-- C1 amended: the scenario yields exactly two sessions, the verbatim
venue line and the second line combined with that neighbour line, both
carrying the buy link. -/
theorem c1_end_to_end_amended :
    filterDuplicateSessions (extractSessionsFromText c1text c1link []) =
      [⟨c1info1, c1link⟩, ⟨c1info2, c1link⟩] := by
  decide

/-! ## Lemmas about `goFields` and `goIntercalate` -/

lemma goFieldsAux_words : ∀ (s acc : GoStr), (∀ c ∈ acc, isGoSpace c = false) →
    ∀ w ∈ goFieldsAux s acc, w ≠ [] ∧ ∀ c ∈ w, isGoSpace c = false := by
  intro s
  induction s with
  | nil =>
    intro acc hacc w hw
    simp only [goFieldsAux] at hw
    split at hw
    · simp at hw
    case isFalse h =>
      rcases List.mem_singleton.mp hw with rfl
      refine ⟨by simpa using h, ?_⟩
      intro c hc
      exact hacc c (List.mem_reverse.mp hc)
  | cons c rest ih =>
    intro acc hacc w hw
    simp only [goFieldsAux] at hw
    split at hw
    case isTrue hsp =>
      split at hw
      · exact ih [] (by simp) w hw
      case isFalse hne =>
        rcases List.mem_cons.mp hw with rfl | hw'
        · refine ⟨by simpa using hne, ?_⟩
          intro d hd
          exact hacc d (List.mem_reverse.mp hd)
        · exact ih [] (by simp) w hw'
    case isFalse hsp =>
      refine ih (c :: acc) ?_ w hw
      intro d hd
      rcases List.mem_cons.mp hd with rfl | hd'
      · revert hsp; cases isGoSpace d <;> simp
      · exact hacc d hd'

lemma goFields_words (s : GoStr) :
    ∀ w ∈ goFields s, w ≠ [] ∧ ∀ c ∈ w, isGoSpace c = false :=
  goFieldsAux_words s [] (by simp)

lemma goFieldsAux_append_word : ∀ (w r acc : GoStr), (∀ c ∈ w, isGoSpace c = false) →
    goFieldsAux (w ++ r) acc = goFieldsAux r (w.reverse ++ acc) := by
  intro w
  induction w with
  | nil => intro r acc _; simp
  | cons c w' ih =>
    intro r acc hw
    have hc : isGoSpace c = false := hw c (by simp)
    simp only [List.cons_append, goFieldsAux]
    rw [if_neg (by simp [hc])]
    simp only [List.append_eq]
    rw [ih r (c :: acc) (fun d hd => hw d (List.mem_cons_of_mem c hd))]
    congr 1
    simp [List.reverse_cons, List.append_assoc]

lemma goFields_intercalate : ∀ (ws : List GoStr),
    (∀ w ∈ ws, w ≠ [] ∧ ∀ c ∈ w, isGoSpace c = false) →
    goFields (goIntercalate spc ws) = ws := by
  intro ws
  induction ws with
  | nil => intro _; simp [goFields, goIntercalate, goFieldsAux]
  | cons w ws' ih =>
    intro h
    obtain ⟨hw_ne, hw_sp⟩ := h w (by simp)
    cases ws' with
    | nil =>
      show goFields w = [w]
      have hstep := goFieldsAux_append_word w [] [] hw_sp
      simp only [List.append_nil] at hstep
      rw [goFields, hstep]
      simp only [goFieldsAux]
      rw [if_neg (by simpa using hw_ne)]
      simp
    | cons w2 ws'' =>
      show goFields (w ++ spc ++ goIntercalate spc (w2 :: ws'')) = w :: w2 :: ws''
      rw [goFields, List.append_assoc, goFieldsAux_append_word w _ [] hw_sp]
      simp only [List.append_nil, spc, List.singleton_append]
      simp only [goFieldsAux]
      rw [if_pos (by simp [isGoSpace]), if_neg (by simpa using hw_ne)]
      rw [List.reverse_reverse]
      congr 1
      exact ih fun x hx => h x (List.mem_cons_of_mem w hx)

/-! ## Claim C6 -/

/-- C6: `extractDateTimePart` returns the single-space join of the first
two whitespace tokens — which is the whole normalized string when there
are fewer than two tokens, and `token0 ++ " " ++ token1` in every other
case (both the date-pattern branch and the unconditional fallback);
in particular the claimed concrete evaluation holds. -/
theorem c6_date_time_key_extraction :
    (∀ text : GoStr, extractDateTimePart text = goIntercalate spc ((goFields text).take 2)) ∧
    extractDateTimePart "30/11    12:00   Мариинский театр".toList = "30/11 12:00".toList := by
  constructor
  · intro text
    have hp : goFields (goIntercalate spc (goFields text)) = goFields text :=
      goFields_intercalate _ (goFields_words text)
    simp only [extractDateTimePart, hp]
    cases hft : goFields text with
    | nil => simp
    | cons a tl =>
      cases tl with
      | nil => simp
      | cons b l =>
        rw [if_neg (by simp)]
        split
        · simp [goIntercalate, spc]
        · rw [if_pos (by simp)]
          simp [goIntercalate, spc]
  · decide

/-! ## Claim C7: declarative characterization of the date matcher -/

/-- Some character of `l` is a digit. -/
def HasDigitIn (l : GoStr) : Prop := ∃ c ∈ l, isGoDigit c = true

/-- A date separator occurs in `l` with a digit somewhere after it
(so the separator is in particular not the last character). -/
def SepThenDigit (l : GoStr) : Prop :=
  ∃ l1 d l2 e l3, l = l1 ++ (d :: (l2 ++ (e :: l3))) ∧
    (d = '/' ∨ d = '.') ∧ isGoDigit e = true

/-- The claim's scan condition, stated declaratively: a digit occurs,
followed later by a `/` or `.` separator, followed later by a digit. -/
def DatePatternSpec (l : GoStr) : Prop :=
  ∃ l1 c l2, l = l1 ++ (c :: l2) ∧ isGoDigit c = true ∧ SepThenDigit l2

lemma isGoDigit_not_sep {c : Char} (h : isGoDigit c = true) : ¬(c = '/' ∨ c = '.') := by
  rintro (rfl | rfl) <;> exact absurd h (by decide)

lemma hasDigitIn_nil : ¬ HasDigitIn ([] : GoStr) := by simp [HasDigitIn]

lemma hasDigitIn_cons (x : Char) (r : GoStr) :
    HasDigitIn (x :: r) ↔ isGoDigit x = true ∨ HasDigitIn r := by
  simp [HasDigitIn]

lemma sepThenDigit_nil : ¬ SepThenDigit ([] : GoStr) := by
  rintro ⟨l1, d, l2, e, l3, h, -, -⟩
  exact absurd h.symm (by simp)

lemma datePatternSpec_nil : ¬ DatePatternSpec ([] : GoStr) := by
  rintro ⟨l1, c, l2, h, -, -⟩
  exact absurd h.symm (by simp)

lemma sepThenDigit_cons (x : Char) (r : GoStr) :
    SepThenDigit (x :: r) ↔ ((x = '/' ∨ x = '.') ∧ HasDigitIn r) ∨ SepThenDigit r := by
  constructor
  · rintro ⟨l1, d, l2, e, l3, h, hd, he⟩
    cases l1 with
    | nil =>
      simp only [List.nil_append] at h
      injection h with h1 h2
      subst h1
      refine Or.inl ⟨hd, e, ?_, he⟩
      subst h2
      simp
    | cons a l1' =>
      simp only [List.cons_append] at h
      injection h with h1 h2
      exact Or.inr ⟨l1', d, l2, e, l3, h2, hd, he⟩
  · rintro (⟨hx, e, he, hdig⟩ | ⟨l1, d, l2, e, l3, h, hd, hdg⟩)
    · obtain ⟨r1, r2, rfl⟩ := List.append_of_mem he
      exact ⟨[], x, r1, e, r2, rfl, hx, hdig⟩
    · exact ⟨x :: l1, d, l2, e, l3, by rw [h, List.cons_append], hd, hdg⟩

lemma datePatternSpec_cons (x : Char) (r : GoStr) :
    DatePatternSpec (x :: r) ↔ (isGoDigit x = true ∧ SepThenDigit r) ∨ DatePatternSpec r := by
  constructor
  · rintro ⟨l1, c, l2, h, hc, hstd⟩
    cases l1 with
    | nil =>
      simp only [List.nil_append] at h
      injection h with h1 h2
      subst h1
      subst h2
      exact Or.inl ⟨hc, hstd⟩
    | cons a l1' =>
      simp only [List.cons_append] at h
      injection h with h1 h2
      exact Or.inr ⟨l1', c, l2, h2, hc, hstd⟩
  · rintro (⟨hx, hstd⟩ | ⟨l1, c, l2, h, hc, hstd⟩)
    · exact ⟨[], x, r, rfl, hx, hstd⟩
    · exact ⟨x :: l1, c, l2, by rw [h, List.cons_append], hc, hstd⟩

/-- What the scan's third flag (`hasDigitAfter`) computes, for any
starting flags. -/
lemma mdpLoop_third_iff : ∀ (l : GoStr) (b s a : Bool),
    (mdpLoop l b s a).2.2 = true ↔
      (a = true ∨ (s = true ∧ HasDigitIn l) ∨ (b = true ∧ SepThenDigit l) ∨
        DatePatternSpec l) := by
  intro l
  induction l with
  | nil =>
    intro b s a
    simp [mdpLoop, hasDigitIn_nil, sepThenDigit_nil, datePatternSpec_nil]
  | cons x r ih =>
    intro b s a
    simp only [mdpLoop]
    split
    case isTrue hdig =>
      have hnotsep := isGoDigit_not_sep hdig
      split
      case isTrue hs =>
        rw [ih]
        simp only [hs, hasDigitIn_cons, sepThenDigit_cons, datePatternSpec_cons, hdig]
        tauto
      case isFalse hs =>
        have hs' : s = false := by revert hs; cases s <;> simp
        rw [ih]
        simp only [hs', hasDigitIn_cons, sepThenDigit_cons, datePatternSpec_cons, hdig]
        tauto
    case isFalse hdig =>
      have hdig' : isGoDigit x = false := by revert hdig; cases isGoDigit x <;> simp
      split
      case isTrue hsep =>
        obtain ⟨hsx, hb, hr⟩ := hsep
        rw [ih]
        simp only [hb, hasDigitIn_cons, sepThenDigit_cons, datePatternSpec_cons, hdig']
        tauto
      case isFalse hsep =>
        rw [ih]
        simp only [hasDigitIn_cons, sepThenDigit_cons, datePatternSpec_cons, hdig']
        by_cases hbx : (x = '/' ∨ x = '.') ∧ b = true
        · have hr : r = [] := by
            by_contra hrne
            exact hsep ⟨hbx.1, hbx.2, hrne⟩
          subst hr
          simp only [hasDigitIn_nil, sepThenDigit_nil, datePatternSpec_nil]
          tauto
        · tauto

/-- The flags satisfy `hasDigitAfter → hasSeparator → hasDigitBefore`
throughout the scan. -/
lemma mdpLoop_invariant : ∀ (l : GoStr) (b s a : Bool),
    (s = true → b = true) → (a = true → s = true) →
    ((mdpLoop l b s a).2.1 = true → (mdpLoop l b s a).1 = true) ∧
    ((mdpLoop l b s a).2.2 = true → (mdpLoop l b s a).2.1 = true) := by
  intro l
  induction l with
  | nil => intro b s a h1 h2; exact ⟨h1, h2⟩
  | cons x r ih =>
    intro b s a h1 h2
    simp only [mdpLoop]
    split
    · split
      case isTrue hs => exact ih b s true h1 (fun _ => hs)
      case isFalse hs => exact ih true s a (fun _ => rfl) h2
    · split
      case isTrue hsep => exact ih b true a (fun _ => hsep.2.1) (fun _ => rfl)
      case isFalse => exact ih b s a h1 h2

/-- C7: `matchesDatePattern` returns true exactly when a digit occurs
before a `/` or `.` separator that is followed (hence not last) by a
further digit; the claimed concrete evaluations hold. -/
theorem c7_date_time_matcher :
    (∀ line : GoStr, matchesDatePattern line = true ↔ DatePatternSpec line) ∧
    matchesDatePattern "30/11 12:00".toList = true ∧
    matchesDatePattern "hello world".toList = false ∧
    matchesDatePattern "12:00".toList = false ∧
    matchesDatePattern "30/11".toList = true := by
  refine ⟨?_, by decide, by decide, by decide, by decide⟩
  intro line
  unfold matchesDatePattern
  constructor
  · intro h
    simp only [Bool.and_eq_true] at h
    have h3 := (mdpLoop_third_iff line false false false).mp h.2
    simpa using h3
  · intro hdp
    have h3 : (mdpLoop line false false false).2.2 = true :=
      (mdpLoop_third_iff line false false false).mpr (by tauto)
    have hinv := mdpLoop_invariant line false false false (by simp) (by simp)
    have h2 := hinv.2 h3
    have h1 := hinv.1 h2
    simp [h1, h2, h3]

/-! ## Claim C9: theater-name extraction -/

lemma goIndexByte_none (s sub : GoStr) (h : goContains s sub = false) :
    goIndexByte s sub = none := by
  induction s with
  | nil =>
    simp only [goContains] at h
    simp [goIndexByte, h]
  | cons c rest ih =>
    simp only [goContains, Bool.or_eq_false_iff] at h
    simp [goIndexByte, h.1, ih h.2]

lemma etnTruncate_le (ws : List GoStr) : ∀ res, goLen res ≤ 100 → goLen (etnTruncate ws res) ≤ 100 := by
  induction ws with
  | nil => intro res h; exact h
  | cons w ws' ih =>
    intro res h
    simp only [etnTruncate]
    split
    case isTrue hfit =>
      refine ih _ ?_
      split
      case isTrue hres => omega
      case isFalse hres =>
        rw [goLen_append]
        have hsp : goCharLen ' ' = 1 := by decide
        simp only [goLen, hsp]
        omega
    case isFalse => exact h

lemma goIntercalate_ne_nil {ws : List GoStr} (hne : ws ≠ []) (hw : ∀ w ∈ ws, w ≠ []) :
    goIntercalate spc ws ≠ [] := by
  cases ws with
  | nil => exact absurd rfl hne
  | cons w ws' =>
    cases ws' with
    | nil => exact hw w (by simp)
    | cons w2 ws'' =>
      have h1 : w ++ spc ++ goIntercalate spc (w2 :: ws'') =
          goIntercalate spc (w :: w2 :: ws'') := rfl
      rw [← h1]
      simp [spc]

lemma goIntercalate_append_single (ws : List GoStr) (w : GoStr) (hne : ws ≠ []) :
    goIntercalate spc (ws ++ [w]) = goIntercalate spc ws ++ ' ' :: w := by
  induction ws with
  | nil => exact absurd rfl hne
  | cons w1 ws' ih =>
    cases ws' with
    | nil =>
      show goIntercalate spc [w1, w] = w1 ++ ' ' :: w
      show w1 ++ spc ++ goIntercalate spc [w] = w1 ++ ' ' :: w
      simp [goIntercalate, spc]
    | cons w2 ws'' =>
      show goIntercalate spc (w1 :: ((w2 :: ws'') ++ [w])) = _
      have h1 : goIntercalate spc (w1 :: ((w2 :: ws'') ++ [w])) =
          w1 ++ spc ++ goIntercalate spc ((w2 :: ws'') ++ [w]) := rfl
      rw [h1, ih (by simp)]
      show _ = (w1 ++ spc ++ goIntercalate spc (w2 :: ws'')) ++ ' ' :: w
      simp [List.append_assoc]

lemma etnTruncate_spec : ∀ (ws pre : List GoStr),
    (∀ w ∈ pre, w ≠ []) → (∀ w ∈ ws, w ≠ []) →
    ∃ pre2, etnTruncate ws (goIntercalate spc pre) = goIntercalate spc (pre ++ pre2) ∧
      pre2 <+: ws := by
  intro ws
  induction ws with
  | nil =>
    intro pre h1 h2
    exact ⟨[], by simp [etnTruncate], List.nil_prefix⟩
  | cons w ws' ih =>
    intro pre h1 h2
    simp only [etnTruncate]
    split
    case isTrue hfit =>
      have hw : w ≠ [] := h2 w (by simp)
      have hnew : (if goIntercalate spc pre = [] then w
          else goIntercalate spc pre ++ ' ' :: w) = goIntercalate spc (pre ++ [w]) := by
        cases pre with
        | nil => simp [goIntercalate]
        | cons p ps =>
          rw [if_neg (goIntercalate_ne_nil (by simp) h1)]
          rw [goIntercalate_append_single _ _ (by simp)]
      rw [hnew]
      have hallw : ∀ x ∈ pre ++ [w], x ≠ [] := by
        intro x hx
        rcases List.mem_append.mp hx with h | h
        · exact h1 x h
        · rcases List.mem_singleton.mp h with rfl; exact hw
      obtain ⟨pre2, hp, hpref⟩ := ih (pre ++ [w]) hallw
        (fun x hx => h2 x (List.mem_cons_of_mem w hx))
      refine ⟨w :: pre2, ?_, ?_⟩
      · rw [hp]; congr 1; simp
      · obtain ⟨t, ht⟩ := hpref
        exact ⟨t, by rw [List.cons_append, ht]⟩
    case isFalse =>
      exact ⟨[], by simp, List.nil_prefix⟩

lemma etnScan_len (kw : GoStr) : ∀ ls, goLen (etnScan kw ls) ≤ 100 := by
  intro ls
  induction ls with
  | nil => simp [etnScan, goLen]
  | cons line rest ih =>
    simp only [etnScan]
    split
    · split
      case isTrue h => exact etnTruncate_le _ [] (by simp [goLen])
      case isFalse h => omega
    · exact ih

lemma etnScan_shape (kw : GoStr) : ∀ ls, etnScan kw ls = [] ∨
    ∃ line ∈ ls, goFields (etnScan kw ls) <+: goFields (goTrim line) ∧
      etnScan kw ls = goIntercalate spc (goFields (etnScan kw ls)) := by
  intro ls
  induction ls with
  | nil => exact Or.inl rfl
  | cons line rest ih =>
    simp only [etnScan]
    split
    case isTrue hc =>
      have hwords := goFields_words (goTrim line)
      have hfieldsc : goFields (goIntercalate spc (goFields (goTrim line))) =
          goFields (goTrim line) := goFields_intercalate _ hwords
      split
      case isTrue hlong =>
        rw [hfieldsc]
        obtain ⟨pre2, hp, hpref⟩ := etnTruncate_spec (goFields (goTrim line)) [] (by simp)
          (fun w hw => (hwords w hw).1)
        have hnilpre : goIntercalate spc ([] : List GoStr) = [] := rfl
        rw [hnilpre] at hp
        simp only [List.nil_append] at hp
        have hfields2 : goFields (goIntercalate spc pre2) = pre2 :=
          goFields_intercalate pre2 (fun w hw => hwords w (hpref.subset hw))
        right
        refine ⟨line, by simp, ?_, ?_⟩
        · rw [hp, hfields2]; exact hpref
        · rw [hp, hfields2]
      case isFalse hshort =>
        right
        exact ⟨line, by simp, by rw [hfieldsc], by rw [hfieldsc]⟩
    case isFalse =>
      rcases ih with h | ⟨l2, hl2, h1, h2⟩
      · exact Or.inl h
      · exact Or.inr ⟨l2, List.mem_cons_of_mem line hl2, h1, h2⟩

/-- C9: theater-name extraction — the empty string results whenever the
keyword does not occur case-insensitively; the result never exceeds 100
characters; and any non-empty result is a whitespace-collapsed prefix
of the words of one line of the context window, so truncation only ever
happens at a word boundary. -/
theorem c9_theater_name_extraction :
    ∀ text keyword : GoStr,
      (goContains (goToLower text) (goToLower keyword) = false →
        extractTheaterName text keyword = []) ∧
      (extractTheaterName text keyword).length ≤ 100 ∧
      (extractTheaterName text keyword = [] ∨
        ∃ idx line, goIndexByte (goToLower text) (goToLower keyword) = some idx ∧
          line ∈ goSplitNl (etnContextAt text idx) ∧
          goFields (extractTheaterName text keyword) <+: goFields (goTrim line) ∧
          extractTheaterName text keyword =
            goIntercalate spc (goFields (extractTheaterName text keyword))) := by
  intro text keyword
  refine ⟨?_, ?_, ?_⟩
  · intro h
    unfold extractTheaterName
    rw [goIndexByte_none _ _ h]
  · have hb : goLen (extractTheaterName text keyword) ≤ 100 := by
      unfold extractTheaterName
      cases goIndexByte (goToLower text) (goToLower keyword) with
      | none => simp [goLen]
      | some idx => exact etnScan_len _ _
    exact le_trans (length_le_goLen _) hb
  · unfold extractTheaterName
    cases hidx : goIndexByte (goToLower text) (goToLower keyword) with
    | none => exact Or.inl rfl
    | some idx =>
      rcases etnScan_shape (goToLower keyword) (goSplitNl (etnContextAt text idx)) with
        h | ⟨line, hl, h1, h2⟩
      · exact Or.inl h
      · exact Or.inr ⟨idx, line, rfl, hl, h1, h2⟩

theorem c9_theater_name_extraction_witness :
    goContains (goToLower "привет".toList) (goToLower "театр".toList) = false ∧
    extractTheaterName "привет".toList "театр".toList = [] :=
  ⟨by decide, (c9_theater_name_extraction "привет".toList "театр".toList).1 (by decide)⟩

/-! ## Claim C8: buy-link resolution -/

/-- A malformed page URL: Go's `url.Parse` rejects control characters,
and the trailing newline is one. -/
def c8badPage : GoStr := "https://site.ru/".toList ++ ['\n']

/-- C8 counterexample: with a malformed (unparsable) page URL and a
well-formed relative href, `resolveBaletBuyLink` returns the href
itself (source line 573), not the empty string the claim demands. -/
theorem c8_buy_link_counterexample :
    urlParse c8badPage = none ∧
    resolveBaletBuyLink c8badPage "/buy/123".toList = "/buy/123".toList ∧
    resolveBaletBuyLink c8badPage "/buy/123".toList ≠ [] := by
  refine ⟨by decide, by decide, by decide⟩

/-- C8 amended: a relative href is resolved against the page URL (with
the claimed concrete resolution); an empty or unparsable href yields
the empty string; but an unparsable page URL yields the parsed href's
own string — never an error, yet not the empty string. -/
theorem c8_buy_link_amended :
    resolveBaletBuyLink "https://site.ru/show/x/".toList "/buy/123".toList =
      "https://site.ru/buy/123".toList ∧
    (∀ p h : GoStr, goTrim h = [] → resolveBaletBuyLink p h = []) ∧
    (∀ p h : GoStr, urlParse (goTrim h) = none → resolveBaletBuyLink p h = []) ∧
    (∀ (p h : GoStr) (u : GoUrl), goTrim h ≠ [] → urlParse (goTrim h) = some u →
      urlIsAbs u = false → urlParse p = none → resolveBaletBuyLink p h = urlString u) := by
  refine ⟨by decide, ?_, ?_, ?_⟩
  · intro p h he
    simp [resolveBaletBuyLink, he]
  · intro p h hp
    unfold resolveBaletBuyLink
    by_cases he : goTrim h = []
    · simp [he]
    · rw [if_neg he, hp]
  · intro p h u hne hu habs hpage
    unfold resolveBaletBuyLink
    rw [if_neg hne, hu]
    show (if urlIsAbs u then urlString u
      else match urlParse p with
        | none => urlString u
        | some base => urlString (urlResolveReference base u)) = urlString u
    rw [if_neg (by simp [habs]), hpage]

theorem c8_buy_link_amended_witness :
    goTrim ("  ".toList) = [] ∧ resolveBaletBuyLink "x".toList "  ".toList = [] :=
  ⟨by decide, c8_buy_link_amended.2.1 "x".toList "  ".toList (by decide)⟩
